import Mathlib

set_option maxRecDepth 8000

namespace Flexagonator

/-- Strings of the source are modelled as lists of characters, so that every
string operation is a structural function. -/
abbrev Str := List Char

/-- Splits a string at every space, like the source's `split(" ")`: an empty
string yields one empty piece, and consecutive spaces yield empty pieces. -/
def splitSpaces : Str → List Str
  | [] => [[]]
  | c :: rest =>
    if c = ' ' then [] :: splitSpaces rest
    else
      match splitSpaces rest with
      | [] => [[c]]
      | t :: ts => (c :: t) :: ts

/-- A pat is one stack position in a flexagon's ring: either a single leaf,
identified by a signed integer (sign = front/back orientation), or a folded
pair of sub-pats (from the recursive pat/leaf data model of the source). -/
inductive Pat where
  | leaf (id : Int)
  | pair (a b : Pat)
deriving DecidableEq, Repr

/-- A flexagon is an ordered ring of pats. -/
abbrev Flexagon := List Pat

/-- Result codes returned by manager operations (FlexCode in the source). -/
inductive FlexCode where
  | CantApplyFlex
  | UnknownFlex
deriving DecidableEq, Repr

/-- Tagged error value returned by manager operations. -/
structure FlexError where
  reason : FlexCode
  flexName : Str
deriving DecidableEq, Repr

/-- Predicate used by the source to recognize a failed result. -/
def isFlexError (r : Except FlexError Bool) : Bool :=
  match r with
  | .error _ => true
  | .ok _ => false

/-- Modelled from the spec: the class `Flex` and `makeAllFlexes` are not under
src/. A flex provides `apply`, which produces the transformed flexagon or
fails (pattern-match failure), and `createPattern`, which regenerates an input
that already has the matching nested structure. -/
structure MFlex where
  apply : Flexagon → Option Flexagon
  createPattern : Flexagon → Flexagon

/-- Modelled from the spec: a history entry records the flexes applied in one
step and the resulting flexagon (class `History` is not under src/; the
history is a linear list to which successful operations append). -/
structure HistoryEntry where
  flexes : List Str
  flexagon : Flexagon

/-- State of a FlexagonManager (src/src/flex/FlexagonManager.ts): the current
flexagon, the full flex set, the prime-flex subset, and the linear history.
The flex sets are read-only association lists from name to flex. -/
structure FlexagonManager where
  flexagon : Flexagon
  allFlexes : List (Str × MFlex)
  primeFlexes : List (Str × MFlex)
  history : List HistoryEntry

/-- Looks a flex up by name in a flex set (the source indexes `this.allFlexes[flexName]`). -/
def lookupFlex (fs : List (Str × MFlex)) (name : Str) : Option MFlex :=
  (fs.find? (fun p => p.1 == name)).map (fun p => p.2)

/-- Tests whether a flex string ends in '+' (the source checks
`flexStr[flexStr.length - 1] === '+'`). -/
def endsInPlus (s : Str) : Bool := s.getLast? == some '+'

/-- Tail of applyFlex after the flex was found and its input selected: apply
the flex, and on success update the current flexagon and append one history
entry; on failure return the CantApplyFlex error and leave the state alone. -/
def finishApply (m : FlexagonManager) (flexStr flexName : Str) (fl : MFlex)
    (input : Flexagon) : Except FlexError Bool × FlexagonManager :=
  match fl.apply input with
  | none => (.error ⟨.CantApplyFlex, flexName⟩, m)
  | some result =>
    (.ok true, { m with flexagon := result,
                        history := m.history ++ [⟨[flexStr], result⟩] })

/-- Name selected by applyFlex: the flex string with a trailing '+' stripped. -/
def strippedName (flexStr : Str) : Str :=
  if endsInPlus flexStr then flexStr.dropLast else flexStr

/-- FlexagonManager.applyFlex: if the flex string ends with '+', strip it and
regenerate the needed structure via createPattern first; unknown names give
UnknownFlex; otherwise apply to the selected input. -/
def applyFlex (m : FlexagonManager) (flexStr : Str) :
    Except FlexError Bool × FlexagonManager :=
  match lookupFlex m.allFlexes (strippedName flexStr) with
  | none => (.error ⟨.UnknownFlex, strippedName flexStr⟩, m)
  | some fl =>
    finishApply m flexStr (strippedName flexStr) fl
      (if endsInPlus flexStr then fl.createPattern m.flexagon else m.flexagon)

/-- Loop of FlexagonManager.applyFlexes over the already-split flex names:
apply each in turn, stopping at the first failure, which is rewrapped as a
CantApplyFlex error naming the failing flex. -/
def applyFlexesList (m : FlexagonManager) :
    List Str → Except FlexError Bool × FlexagonManager
  | [] => (.ok true, m)
  | flexName :: rest =>
    match applyFlex m flexName with
    | (.error _, m1) => (.error ⟨.CantApplyFlex, flexName⟩, m1)
    | (.ok _, m1) => applyFlexesList m1 rest

/-- FlexagonManager.applyFlexes: split the space-delimited flex string and
apply each flex in turn. -/
def applyFlexes (m : FlexagonManager) (flexStr : Str) :
    Except FlexError Bool × FlexagonManager :=
  applyFlexesList m (splitSpaces flexStr)

/-- Modelled from the spec: `checkForFlexes` (not under src/) returns the
names of the flexes in a flex set that can be applied to the given flexagon. -/
def checkForFlexes (f : Flexagon) (fs : List (Str × MFlex)) : List Str :=
  (fs.filter (fun p => (p.2.apply f).isSome)).map (fun p => p.1)

/-- The source writes `this.allFlexes[name].apply(modified) as Flexagon`,
assuming the rotate/turn-over flexes always apply; the model keeps the input
flexagon if the lookup or the application fails. -/
def castApply (fs : List (Str × MFlex)) (name : Str) (f : Flexagon) : Flexagon :=
  match lookupFlex fs name with
  | none => f
  | some fl => (fl.apply f).getD f

/-- Iterates the `>` flex the requested number of times, as
checkForPrimeFlexes does. -/
def stepRight : List (Str × MFlex) → Nat → Flexagon → Flexagon
  | _, 0, f => f
  | fs, n + 1, f => stepRight fs n (castApply fs ['>'] f)

/-- FlexagonManager.checkForPrimeFlexes: possibly flip and rotate a copy of
the current flexagon, then report which prime flexes apply there. The pair
result makes the (absence of) state change explicit: the manager state is
returned unchanged, mirroring that the source method never assigns to
`this.flexagon`, the flex sets, or the history. -/
def checkForPrimeFlexes (m : FlexagonManager) (flip : Bool) (steps : Nat) :
    List Str × FlexagonManager :=
  let modified := if flip then castApply m.allFlexes ['^'] m.flexagon else m.flexagon
  let modified2 := stepRight m.allFlexes steps modified
  (checkForFlexes modified2 m.primeFlexes, m)

/-- Flexes that cancel at the junction in addAndConsolidate: a `<` cancels a
trailing `>`, a `>` cancels a trailing `<`, and a `^` cancels a trailing `^`. -/
def cancelsRotate (flex last : Str) : Bool :=
  (flex == ['<'] && last == ['>']) || (flex == ['>'] && last == ['<']) ||
  (flex == ['^'] && last == ['^'])

/-- Loop of addAndConsolidate (src/unnamed/part_000): while `start` is true,
a new flex cancelling against the accumulated list's last element pops it and
stays in start mode; the first non-cancelling new flex is pushed and clears
`start`, after which every remaining new flex is pushed unchanged. -/
def consolidateLoop (allflexes : List Str) (start : Bool) :
    List Str → List Str
  | [] => allflexes
  | flex :: rest =>
    if start then
      if cancelsRotate flex (allflexes.getLastD []) then
        consolidateLoop allflexes.dropLast true rest
      else
        consolidateLoop (allflexes ++ [flex]) false rest
    else
      consolidateLoop (allflexes ++ [flex]) false rest

/-- addAndConsolidate (src/unnamed/part_000): add new flexes to old,
consolidating redundant rotates at the junction. -/
def addAndConsolidate (oldFlexes newFlexes : List Str) : List Str :=
  consolidateLoop oldFlexes true newFlexes

/-- Turning a pat over: physically flipping a folded stack reverses its
nesting and negates every leaf. -/
def patTurnOver : Pat → Pat
  | .leaf id => .leaf (-id)
  | .pair a b => .pair (patTurnOver b) (patTurnOver a)

/-- Mirroring a pat: reversing the fold direction reverses the nesting
without renaming faces. -/
def patMirror : Pat → Pat
  | .leaf id => .leaf id
  | .pair a b => .pair (patMirror b) (patMirror a)

/-- Negating every leaf of a pat, keeping the nesting. -/
def patNeg : Pat → Pat
  | .leaf id => .leaf (-id)
  | .pair a b => .pair (patNeg a) (patNeg b)

/-- Modelled from the spec: turning the whole flexagon over (class Tracker
and the Flexagon symmetry helpers are not under src/) negates every leaf id
and reverses the pat order; each pat is itself turned over. -/
def turnOver (f : Flexagon) : Flexagon := (f.map patTurnOver).reverse

/-- Modelled from the spec: a full reflection (mirror-image fold direction)
reverses the ring and mirrors each pat's nesting without renaming faces. -/
def reflectRing (f : Flexagon) : Flexagon := (f.map patMirror).reverse

/-- Serialized signed-leaf-sequence encoding of a pat, with structure
markers: a prefix code, so a concatenation of encodings determines the pats. -/
def encPat : Pat → List Int
  | .leaf id => [1, id]
  | .pair a b => 2 :: (encPat a ++ encPat b)

/-- Serialized signed-leaf-sequence encoding of a flexagon. -/
def encFlexagon (f : Flexagon) : List Int := (f.map encPat).flatten

/-- Symmetry image of a flexagon: optionally turn it over, optionally
reflect it, then rotate k steps. -/
def applySym (i j : Bool) (k : Nat) (f : Flexagon) : Flexagon :=
  ((if i then reflectRing else id) ((if j then turnOver else id) f)).rotate k

/-- Modelled from the spec: all 2 x 2 x ringLength symmetry images of a
flexagon (identity/turn-over x identity/reflection x each rotation). -/
def symImages (f : Flexagon) : List Flexagon :=
  (List.range f.length).map (fun k => f.rotate k) ++
  (List.range f.length).map (fun k => (turnOver f).rotate k) ++
  (List.range f.length).map (fun k => (reflectRing f).rotate k) ++
  (List.range f.length).map (fun k => (reflectRing (turnOver f)).rotate k)

/-- Modelled from the spec: the canonical key of a flexagon is the minimum
serialized encoding among all of its symmetry images. -/
def canonicalKey (f : Flexagon) : WithTop (List Int) :=
  ((symImages f).map encFlexagon).minimum

/-- Modelled from the spec: a Tracker stores the canonical keys of the
flexagon states seen so far, in discovery order. -/
structure Tracker where
  keys : List (WithTop (List Int))
deriving DecidableEq, Repr

/-- Number of distinct states recorded by the tracker. -/
def Tracker.getTotalStates (t : Tracker) : Nat := t.keys.length

/-- Tracker constructor: a new tracker already tracks the given flexagon. -/
def makeTracker (f : Flexagon) : Tracker := ⟨[canonicalKey f]⟩

/-- Modelled from the spec: findMaybeAdd returns the existing index of the
flexagon's canonical key, or records the key at the next sequential index
and signals a new state with none. -/
def Tracker.findMaybeAdd (t : Tracker) (f : Flexagon) : Option Nat × Tracker :=
  let key := canonicalKey f
  match t.keys.findIdx? (fun x => x == key) with
  | some i => (some i, t)
  | none => (none, ⟨t.keys ++ [key]⟩)

/-- Which remainder letter of an atomic pattern. -/
inductive RemLetter where
  | ra
  | rb
deriving DecidableEq, Repr

/-- A remainder token of an atomic pattern: a or b, possibly negated. -/
structure Remainder where
  neg : Bool
  letter : RemLetter
deriving DecidableEq, Repr

/-- Hinge direction of a connected pat: > or <. -/
inductive Dir where
  | right
  | left
deriving DecidableEq, Repr

/-- A pat together with its hinge direction. -/
structure ConnectedPat where
  pat : Pat
  dir : Dir
deriving DecidableEq, Repr

/-- Modelled from the spec: an AtomicPattern (the atomic-pattern module is
not under src/) — a left remainder, the connected pats left of the '/'
rotation point (in print order, the last one adjacent to the '/'), those
right of it (the first one adjacent), and the right remainder. -/
structure AtomicPattern where
  otherLeft : Remainder
  left : List ConnectedPat
  right : List ConnectedPat
  otherRight : Remainder
deriving DecidableEq, Repr

/-- The ten digit characters. -/
def digitChar : Nat → Char
  | 0 => '0' | 1 => '1' | 2 => '2' | 3 => '3' | 4 => '4'
  | 5 => '5' | 6 => '6' | 7 => '7' | 8 => '8' | _ => '9'

/-- Numeric value of a digit character. -/
def digitVal : Char → Nat
  | '0' => 0 | '1' => 1 | '2' => 2 | '3' => 3 | '4' => 4
  | '5' => 5 | '6' => 6 | '7' => 7 | '8' => 8 | '9' => 9
  | _ => 0

/-- Tests for a digit character. -/
def isDigitCh : Char → Bool
  | '0' => true | '1' => true | '2' => true | '3' => true | '4' => true
  | '5' => true | '6' => true | '7' => true | '8' => true | '9' => true
  | _ => false

/-- Decimal digits of a natural number, most significant first; the fuel
strictly bounds the number, so it never runs out. -/
def natDigitsAux : Nat → Nat → List Char
  | _, 0 => []
  | n, fuel + 1 =>
    if n < 10 then [digitChar n]
    else natDigitsAux (n / 10) fuel ++ [digitChar (n % 10)]

/-- Decimal digits of a natural number, most significant first. -/
def natDigits (n : Nat) : List Char := natDigitsAux n (n + 1)

/-- Prints a signed integer. -/
def printInt (i : Int) : Str :=
  (if i < 0 then ['-'] else []) ++ natDigits i.natAbs

/-- Prints a pat: a bare signed integer or a bracketed folded pair. -/
def printPat : Pat → Str
  | .leaf id => printInt id
  | .pair a b => '[' :: (printPat a ++ ',' :: (printPat b ++ [']']))

/-- Prints a hinge direction. -/
def dirChar : Dir → Char
  | .right => '>'
  | .left => '<'

/-- Prints a remainder token. -/
def remChars (r : Remainder) : Str :=
  (if r.neg then ['-'] else []) ++
  [match r.letter with | .ra => 'a' | .rb => 'b']

/-- Prints connected pats, each pat followed by its direction, all
space-separated, with a trailing space when nonempty. -/
def printConnected : List ConnectedPat → Str
  | [] => []
  | c :: cs => printPat c.pat ++ ' ' :: dirChar c.dir :: ' ' :: printConnected cs

/-- Modelled from the spec: atomicPatternToString serializes a pattern in
canonical form — space-separated tokens, nested brackets [a,b] for a folded
pair, a leading '-' for negative leaf ids, '/' at the rotation point. -/
def atomicPatternToString (p : AtomicPattern) : Str :=
  remChars p.otherLeft ++ ' ' :: (printConnected p.left ++ '/' :: ' ' ::
    (printConnected p.right ++ remChars p.otherRight))

/-- Drops leading spaces. -/
def skipSp (cs : Str) : Str := cs.dropWhile (fun c => c == ' ')

/-- Parses a run of digits into a natural number. -/
def parseNat (cs : Str) : Option (Nat × Str) :=
  let ds := cs.takeWhile isDigitCh
  if ds.isEmpty then none
  else some (ds.foldl (fun a c => 10 * a + digitVal c) 0,
             cs.dropWhile isDigitCh)

/-- Parses a signed integer. -/
def parseInt (cs : Str) : Option (Int × Str) :=
  match cs with
  | [] => none
  | c :: rest =>
    if c = '-' then (parseNat rest).map (fun p => (-(p.1 : Int), p.2))
    else (parseNat (c :: rest)).map (fun p => ((p.1 : Int), p.2))

/-- Expects the comma between the halves of a folded pair. -/
def expectComma : Str → Option Str
  | [] => none
  | c :: rest => if c = ',' then some rest else none

/-- Expects the closing bracket of a folded pair. -/
def expectClose : Str → Option Str
  | [] => none
  | c :: rest => if c = ']' then some rest else none

/-- Parses a pat: a bracketed pair or a signed integer; the fuel bounds the
nesting depth. -/
def parsePat : Nat → Str → Option (Pat × Str)
  | 0, _ => none
  | fuel + 1, cs =>
    match cs with
    | [] => none
    | c :: rest =>
      if c = '[' then
        (parsePat fuel (skipSp rest)).bind (fun pa =>
          (expectComma (skipSp pa.2)).bind (fun r2 =>
            (parsePat fuel (skipSp r2)).bind (fun pb =>
              (expectClose (skipSp pb.2)).map
                (fun r4 => (Pat.pair pa.1 pb.1, r4)))))
      else (parseInt (c :: rest)).map (fun p => (Pat.leaf p.1, p.2))

/-- Parses a hinge direction. -/
def parseDir : Str → Option (Dir × Str)
  | [] => none
  | c :: rest =>
    if c = '>' then some (.right, rest)
    else if c = '<' then some (.left, rest)
    else none

/-- Tests whether the input starts with a digit. -/
def digitStart : Str → Bool
  | [] => false
  | c :: _ => isDigitCh c

/-- Tests whether the input starts with a pat token. -/
def isPatStart : Str → Bool
  | [] => false
  | c :: rest =>
    if c = '[' then true
    else if c = '-' then digitStart rest
    else isDigitCh c

/-- Parses connected pats until something that is not a pat token; returns
the rest with leading spaces dropped. -/
def parseConnecteds : Nat → Str → Option (List ConnectedPat × Str)
  | 0, _ => none
  | fuel + 1, cs =>
    let cs1 := skipSp cs
    if isPatStart cs1 then
      (parsePat fuel cs1).bind (fun pp =>
        (parseDir (skipSp pp.2)).bind (fun pd =>
          (parseConnecteds fuel pd.2).map (fun pl =>
            (⟨pp.1, pd.1⟩ :: pl.1, pl.2))))
    else some ([], cs1)

/-- Parses a remainder token. -/
def parseRem : Str → Option (Remainder × Str)
  | [] => none
  | c :: rest =>
    if c = '-' then
      match rest with
      | [] => none
      | c2 :: rest2 =>
        if c2 = 'a' then some (⟨true, .ra⟩, rest2)
        else if c2 = 'b' then some (⟨true, .rb⟩, rest2)
        else none
    else if c = 'a' then some (⟨false, .ra⟩, rest)
    else if c = 'b' then some (⟨false, .rb⟩, rest)
    else none

/-- Expects the '/' rotation-point token. -/
def expectSlash : Str → Option Str
  | [] => none
  | c :: rest => if c = '/' then some rest else none

/-- Modelled from the spec: stringToAtomicPattern parses the serialized form
of an atomic pattern — remainder, connected pats, '/', connected pats,
remainder — rejecting trailing junk. -/
def stringToAtomicPattern (cs : Str) : Option AtomicPattern :=
  (parseRem (skipSp cs)).bind (fun pL =>
    (parseConnecteds (pL.2.length + 1) pL.2).bind (fun pl =>
      (expectSlash pl.2).bind (fun r3 =>
        (parseConnecteds (r3.length + 1) r3).bind (fun pr =>
          (parseRem pr.2).bind (fun pR =>
            if skipSp pR.2 = [] then some ⟨pL.1, pl.1, pr.1, pR.1⟩
            else none)))))

/-- Number of nodes of a pat, a lower bound for the parsing fuel. -/
def patSize : Pat → Nat
  | .leaf _ => 1
  | .pair a b => 1 + patSize a + patSize b

/-- Fuel needed to parse the printed form of these connected pats. -/
def connFuel : List ConnectedPat → Nat
  | [] => 1
  | c :: cs => patSize c.pat + connFuel cs + 1

/-- The opposite hinge direction. -/
def dirFlip : Dir → Dir
  | .right => .left
  | .left => .right

/-- Turns a connected pat over in place: the pat is turned over and the
hinge direction flips. -/
def flipConnected (c : ConnectedPat) : ConnectedPat :=
  ⟨patTurnOver c.pat, dirFlip c.dir⟩

/-- Turns a connected pat over keeping its hinge direction, used when the
two sides swap around the '/'. -/
def turnConnected (c : ConnectedPat) : ConnectedPat :=
  ⟨patTurnOver c.pat, c.dir⟩

/-- Negates a remainder token. -/
def negRem (r : Remainder) : Remainder := ⟨!r.neg, r.letter⟩

/-- Modelled from the spec: the ~ atomic flex (turn over about the other
axis) negates the remainders and turns every pat over, flipping every hinge
direction, with the two sides kept in place. -/
def tildeFlex (p : AtomicPattern) : AtomicPattern :=
  ⟨negRem p.otherLeft, p.left.map flipConnected, p.right.map flipConnected,
   negRem p.otherRight⟩

/-- Modelled from the spec: the ^ atomic flex (turn over about the front
axis) swaps and reverses the two sides around the '/', turning each pat over
with its hinge direction kept, and negates and swaps the remainders. -/
def hatFlex (p : AtomicPattern) : AtomicPattern :=
  ⟨negRem p.otherRight, (p.right.map turnConnected).reverse,
   (p.left.map turnConnected).reverse, negRem p.otherLeft⟩

/-- Rotation-symmetry descriptor of a flex, as passed to makeFlex. -/
inductive FlexRotation where
  | None
  | Mirror
deriving DecidableEq, Repr

/-- Modelled from the spec: a Flex as built by makeFlex (class Flex is not
under src/) — a name, an input pattern tree and an output pattern tree over
numbered leaf slots (sign-aware), and a rotation-symmetry descriptor. -/
structure Flex where
  name : Str
  input : List Pat
  output : List Pat
  rotation : FlexRotation

/-- Looks up a slot binding collected during pattern unification. -/
def lookupSlot (bs : List (Int × Pat)) (v : Int) : Option Pat :=
  (bs.find? (fun p => p.1 == v)).map (fun p => p.2)

/-- Modelled from the spec: unify one pattern pat against a concrete pat.
Structural nesting must match exactly; a leaf slot binds the concrete
sub-pat found at its position, sign-aware — a negative slot binds the
turned-over sub-pat — and a slot bound twice must bind equal sub-pats. -/
def matchPat (pattern concrete : Pat) (bs : List (Int × Pat)) :
    Option (List (Int × Pat)) :=
  match pattern with
  | .leaf v =>
    let bound := if v < 0 then patTurnOver concrete else concrete
    let key := if v < 0 then -v else v
    match lookupSlot bs key with
    | none => some ((key, bound) :: bs)
    | some p => if p = bound then some bs else none
  | .pair a b =>
    match concrete with
    | .leaf _ => none
    | .pair ca cb =>
      match matchPat a ca bs with
      | none => none
      | some bs1 => matchPat b cb bs1

/-- Unify a list of pattern pats against the concrete pats positionally. -/
def matchPats : List Pat → List Pat → List (Int × Pat) →
    Option (List (Int × Pat))
  | [], [], bs => some bs
  | p :: ps, c :: cs, bs =>
    match matchPat p c bs with
    | none => none
    | some bs1 => matchPats ps cs bs1
  | _, _, _ => none

/-- Builds one output pat from the bindings; a negative slot emits the bound
sub-pat turned over. -/
def buildPat (bs : List (Int × Pat)) : Pat → Option Pat
  | .leaf v =>
    if v < 0 then (lookupSlot bs (-v)).map patTurnOver
    else lookupSlot bs v
  | .pair a b =>
    match buildPat bs a, buildPat bs b with
    | some pa, some pb => some (.pair pa pb)
    | _, _ => none

/-- Builds the output pat sequence from the bindings. -/
def buildPats (bs : List (Int × Pat)) : List Pat → Option (List Pat)
  | [] => some []
  | p :: ps =>
    match buildPat bs p, buildPats bs ps with
    | some q, some qs => some (q :: qs)
    | _, _ => none

/-- Modelled from the spec: Flex.apply unifies the flex's input pattern
against the pat sequence and substitutes the bound sub-pats into the output
pattern, failing when no structural match exists. -/
def Flex.apply (fl : Flex) (f : Flexagon) : Option Flexagon :=
  match matchPats fl.input f [] with
  | none => none
  | some bs => buildPats bs fl.output

/-- The 5-flex set of the explore test scenario: the rotates, the turn-over,
and the structural flexes A and B, as defined in testExplore.ts. -/
def exploreFlexes : List Flex :=
  [⟨['>'], [.leaf 1, .leaf 2, .leaf 3, .leaf 4],
    [.leaf 2, .leaf 3, .leaf 4, .leaf 1], .Mirror⟩,
   ⟨['<'], [.leaf 1, .leaf 2, .leaf 3, .leaf 4],
    [.leaf 4, .leaf 1, .leaf 2, .leaf 3], .Mirror⟩,
   ⟨['^'], [.leaf 1, .leaf 2, .leaf 3, .leaf 4],
    [.leaf (-4), .leaf (-3), .leaf (-2), .leaf (-1)], .None⟩,
   ⟨['A'], [.pair (.leaf 1) (.leaf 2), .leaf 3, .leaf 4, .leaf 5],
    [.leaf 1, .pair (.leaf 2) (.leaf 3), .leaf 4, .leaf 5], .None⟩,
   ⟨['B'], [.pair (.leaf 1) (.leaf 2), .leaf 3, .pair (.leaf 4) (.leaf 5),
      .leaf 6],
    [.leaf 1, .leaf 2, .pair (.leaf 3) (.leaf 4), .pair (.leaf 5) (.leaf 6)],
    .None⟩]

/-- All ring orientations of a flexagon: each rotation of the state and of
its turned-over image — exactly the reorientations the rotate and turn-over
flexes realize. -/
def orientations (f : Flexagon) : List Flexagon :=
  (List.range f.length).map (fun k => f.rotate k) ++
  (List.range f.length).map (fun k => (turnOver f).rotate k)

/-- Modelled from the spec: the explore state — the flex set, the tracker,
the frontier queue of unexpanded flexagons, and the explored-state count. -/
structure Explore where
  flexes : List Flex
  tracker : Tracker
  queue : List Flexagon
  explored : Nat

/-- Names of the reorientation flexes, which move between vertices of the
same state rather than to new states. -/
def isRotateName (n : Str) : Bool := n == ['>'] || n == ['<'] || n == ['^']

/-- Explore constructor: the starting flexagon is registered in the tracker
at index 0 and seeds the frontier; the rotate and turn-over flexes of the
supplied set are used as the reorientation moves (every orientation of each
popped state is expanded), the remaining flexes as the structural moves. -/
def makeExplore (f : Flexagon) (flexes : List Flex) : Explore :=
  ⟨flexes.filter (fun fl => !(isRotateName fl.name)), makeTracker f, [f], 0⟩

/-- Total number of distinct states discovered so far. -/
def Explore.getTotalStates (e : Explore) : Nat := e.tracker.getTotalStates

/-- Number of frontier entries expanded so far. -/
def Explore.getExploredStates (e : Explore) : Nat := e.explored

/-- One candidate result: look it up in the tracker and enqueue it exactly
when it is a new state. -/
def trackCandidate (acc : Tracker × List Flexagon) (g : Flexagon) :
    Tracker × List Flexagon :=
  match Tracker.findMaybeAdd acc.1 g with
  | (some _, t) => (t, acc.2)
  | (none, t) => (t, acc.2 ++ [g])

/-- Modelled from the spec: checkNext returns false once the frontier is
empty (fixed point reached); otherwise it pops the next unexpanded
flexagon, attempts every flex of the flex set at every orientation of it,
records each success in the tracker, enqueues the new states, marks the
popped state explored, and returns true. -/
def Explore.checkNext (e : Explore) : Bool × Explore :=
  match e.queue with
  | [] => (false, e)
  | f :: rest =>
    let step := (orientations f).foldl (fun acc g =>
      e.flexes.foldl (fun acc2 fl =>
        match fl.apply g with
        | none => acc2
        | some r => trackCandidate acc2 r) acc) (e.tracker, rest)
    (true, ⟨e.flexes, step.1, step.2, e.explored + 1⟩)

/-- Iterates checkNext the given number of times. -/
def Explore.run : Nat → Explore → Explore
  | 0, e => e
  | n + 1, e => Explore.run n (Explore.checkNext e).2

/-- The chunk of a concrete pattern bound by a remainder wildcard: the
concrete remainder together with the connected pats not consumed by the
pattern's explicit pats, outermost first. -/
structure RemChunk where
  rem : Remainder
  pats : List ConnectedPat
deriving DecidableEq, Repr

/-- Negates a bound remainder chunk: the remainder is negated and its pats
are each turned over with the hinge direction flipped. -/
def negChunk (c : RemChunk) : RemChunk :=
  ⟨negRem c.rem, c.pats.map flipConnected⟩

/-- Matches the pattern's connected pats against the connected pats adjacent
to the '/': directions must agree and the pat trees unify slot-wise; the
leftover outer pats are returned for the remainder wildcard. -/
def matchConnecteds : List ConnectedPat → List ConnectedPat →
    List (Int × Pat) → Option (List (Int × Pat) × List ConnectedPat)
  | [], cs, bs => some (bs, cs)
  | _ :: _, [], _ => none
  | p :: ps, c :: cs, bs =>
    if p.dir = c.dir then
      match matchPat p.pat c.pat bs with
      | none => none
      | some bs1 => matchConnecteds ps cs bs1
    else none

/-- Builds output connected pats from the slot bindings. -/
def buildConnecteds (bs : List (Int × Pat)) :
    List ConnectedPat → Option (List ConnectedPat)
  | [] => some []
  | c :: cs =>
    match buildPat bs c.pat, buildConnecteds bs cs with
    | some q, some qs => some (⟨q, c.dir⟩ :: qs)
    | _, _ => none

/-- Modelled from the spec: an atomic flex given by an input and an output
pattern over numbered slots and remainder wildcards. -/
structure AtomicFlex where
  input : AtomicPattern
  output : AtomicPattern

/-- Modelled from the spec: applying a pattern-based atomic flex unifies the
input pattern's pats against the pats adjacent to the '/', binds each
remainder wildcard (sign-aware) to the concrete remainder plus the leftover
outer pats, and substitutes everything into the output pattern. -/
def applyAtomicFlex (fl : AtomicFlex) (p : AtomicPattern) :
    Option AtomicPattern :=
  match matchConnecteds fl.input.right p.right [] with
  | none => none
  | some (bs1, leftoverR) =>
    match matchConnecteds fl.input.left.reverse p.left.reverse bs1 with
    | none => none
    | some (bs2, leftoverLrev) =>
      let cL : RemChunk := ⟨p.otherLeft, leftoverLrev.reverse⟩
      let cR : RemChunk := ⟨p.otherRight, leftoverR⟩
      let bindL := if fl.input.otherLeft.neg then negChunk cL else cL
      let bindR := if fl.input.otherRight.neg then negChunk cR else cR
      let lookupRem := fun (w : RemLetter) =>
        if fl.input.otherLeft.letter = w then some bindL
        else if fl.input.otherRight.letter = w then some bindR else none
      match buildConnecteds bs2 fl.output.left,
            buildConnecteds bs2 fl.output.right,
            lookupRem fl.output.otherLeft.letter,
            lookupRem fl.output.otherRight.letter with
      | some outL, some outR, some chL, some chR =>
        let emL := if fl.output.otherLeft.neg then negChunk chL else chL
        let emR := if fl.output.otherRight.neg then negChunk chR else chR
        some ⟨emL.rem, emL.pats ++ outL, outR ++ emR.pats, emR.rem⟩
      | _, _, _, _ => none

/-- Modelled from the base-flex table in the src test comments:
Ur = a / [-2,1] > b  ->  a / 1 < 2 > -b. -/
def urFlex : AtomicFlex :=
  ⟨⟨⟨false, .ra⟩, [],
    [⟨.pair (.leaf (-2)) (.leaf 1), .right⟩], ⟨false, .rb⟩⟩,
   ⟨⟨false, .ra⟩, [],
    [⟨.leaf 1, .left⟩, ⟨.leaf 2, .right⟩], ⟨true, .rb⟩⟩⟩

/-- Modelled from the spec: the base atomic operations looked up by name
when running a formula (only the operations the treated formulas need). -/
def atomicsLookup (name : Str) :
    Option (AtomicPattern → Option AtomicPattern) :=
  if name == ['~'] then some (fun p => some (tildeFlex p))
  else if name == ['^'] then some (fun p => some (hatFlex p))
  else if name == "Ur".data then some (applyAtomicFlex urFlex)
  else none

/-- Modelled from the spec: parses a space-delimited formula into its flex
names. -/
def parseFlexSequence (formula : Str) : List Str :=
  (splitSpaces formula).filter (fun t => !t.isEmpty)

/-- Threads an atomic pattern through the named flexes, left to right. -/
def applyFormulaNames : List Str → AtomicPattern → Option AtomicPattern
  | [], p => some p
  | n :: rest, p =>
    match atomicsLookup n with
    | none => none
    | some op =>
      match op p with
      | none => none
      | some q => applyFormulaNames rest q

/-- Runs a formula on a pattern string the way testFormula does: parse the
input string, thread it through the formula's flexes, and serialize the
result. -/
def runFormula (formula input : Str) : Option Str :=
  match stringToAtomicPattern input with
  | none => none
  | some p =>
    match applyFormulaNames (parseFlexSequence formula) p with
    | none => none
    | some q => some (atomicPatternToString q)

/-- Flexagon [[1,2],3,[4,5],6] from the tracker and explore tests. -/
def trackerEx : Flexagon :=
  [Pat.pair (Pat.leaf 1) (Pat.leaf 2), Pat.leaf 3,
   Pat.pair (Pat.leaf 4) (Pat.leaf 5), Pat.leaf 6]

/-- Rotation [[4,5],6,[1,2],3] of the example flexagon. -/
def trackerExRotated : Flexagon :=
  [Pat.pair (Pat.leaf 4) (Pat.leaf 5), Pat.leaf 6,
   Pat.pair (Pat.leaf 1) (Pat.leaf 2), Pat.leaf 3]

/-- Flip-and-rotate [-3,[-2,-1],-6,[-5,-4]] of the example flexagon. -/
def trackerExFlipped : Flexagon :=
  [Pat.leaf (-3), Pat.pair (Pat.leaf (-2)) (Pat.leaf (-1)),
   Pat.leaf (-6), Pat.pair (Pat.leaf (-5)) (Pat.leaf (-4))]

/-- Example flex whose application always succeeds, for concrete manager
scenarios. -/
def exFlexX : MFlex :=
  { apply := fun _ => some [Pat.leaf 2], createPattern := fun f => f }

/-- Example flex used for the createPattern flow, for concrete manager
scenarios. -/
def exFlexS : MFlex :=
  { apply := fun f => some (Pat.leaf 9 :: f),
    createPattern := fun f => f ++ [Pat.leaf 3] }

/-- Concrete manager whose flex set contains only the flex X. -/
def exMgrX : FlexagonManager :=
  { flexagon := [Pat.leaf 1], allFlexes := [(['X'], exFlexX)],
    primeFlexes := [], history := [] }

/-- Concrete manager whose flex set contains only the flex S. -/
def exMgrS : FlexagonManager :=
  { flexagon := [Pat.leaf 1], allFlexes := [(['S'], exFlexS)],
    primeFlexes := [], history := [] }

theorem applyFlex_fail_frame (m : FlexagonManager) (str : Str)
    (h : isFlexError (applyFlex m str).1 = true) : (applyFlex m str).2 = m := by
  unfold applyFlex at h ⊢
  cases hl : lookupFlex m.allFlexes (strippedName str) with
  | none => rfl
  | some fl =>
    rw [hl] at h
    replace h : isFlexError (finishApply m str (strippedName str) fl
        (if endsInPlus str then fl.createPattern m.flexagon
         else m.flexagon)).1 = true := h
    show (finishApply m str (strippedName str) fl
        (if endsInPlus str then fl.createPattern m.flexagon
         else m.flexagon)).2 = m
    unfold finishApply at h ⊢
    cases ha : fl.apply
        (if endsInPlus str then fl.createPattern m.flexagon else m.flexagon) with
    | none => rfl
    | some r =>
      rw [ha] at h
      exact Bool.noConfusion h

theorem applyFlexesList_fail_prefix :
    ∀ (names : List Str) (m : FlexagonManager),
    isFlexError (applyFlexesList m names).1 = true →
    ∃ k, k < names.length ∧
      isFlexError (applyFlexesList m (names.take k)).1 = false ∧
      (applyFlexesList m names).2 = (applyFlexesList m (names.take k)).2 ∧
      isFlexError (applyFlex (applyFlexesList m (names.take k)).2
        (names.getD k [])).1 = true := by
  intro names
  induction names with
  | nil =>
    intro m h
    simp [applyFlexesList, isFlexError] at h
  | cons n rest ih =>
    intro m h
    rcases hr : applyFlex m n with ⟨r, m1⟩
    cases r with
    | error e =>
      have hm1 : m1 = m := by
        have hfr := applyFlex_fail_frame m n (by rw [hr]; rfl)
        rw [hr] at hfr
        exact hfr
      refine ⟨0, by simp, by simp [applyFlexesList, isFlexError], ?_, ?_⟩
      · simp only [applyFlexesList, hr, List.take_zero]
        exact hm1
      · simp only [applyFlexesList, List.take_zero, List.getD_cons_zero, hr,
          isFlexError]
    | ok b =>
      have hstep : applyFlexesList m (n :: rest) = applyFlexesList m1 rest := by
        simp [applyFlexesList, hr]
      rw [hstep] at h
      obtain ⟨k, hk, h1, h2, h3⟩ := ih m1 h
      have htake : ∀ t : List Str,
          applyFlexesList m (n :: t) = applyFlexesList m1 t := by
        intro t; simp [applyFlexesList, hr]
      refine ⟨k + 1, by simpa using Nat.succ_lt_succ hk, ?_, ?_, ?_⟩
      · rw [List.take_succ_cons, htake]
        exact h1
      · rw [hstep, List.take_succ_cons, htake]
        exact h2
      · rw [List.take_succ_cons, htake, List.getD_cons_succ]
        exact h3

/-- Claim C1 (amended): a failing applyFlex call leaves the manager state —
current flexagon, flex set, history — unchanged; a failing applyFlexes call
leaves the state reached after the longest successful prefix of the sequence,
so the successfully applied prefix (and its history entries) persists rather
than the pre-call state being restored. -/
theorem mgr_failure_state (m : FlexagonManager) (str1 str2 : Str) :
    (isFlexError (applyFlex m str1).1 = true → (applyFlex m str1).2 = m) ∧
    (isFlexError (applyFlexes m str2).1 = true →
      ∃ k, k < (splitSpaces str2).length ∧
        isFlexError (applyFlexesList m ((splitSpaces str2).take k)).1 = false ∧
        (applyFlexes m str2).2 =
          (applyFlexesList m ((splitSpaces str2).take k)).2 ∧
        isFlexError (applyFlex (applyFlexesList m ((splitSpaces str2).take k)).2
          ((splitSpaces str2).getD k [])).1 = true) :=
  ⟨applyFlex_fail_frame m str1, applyFlexesList_fail_prefix (splitSpaces str2) m⟩

/-- Counterexample to claim C1 as stated: applyFlexes "X Y" on a manager
whose flex set contains X but not Y returns a tagged error, yet the current
flexagon and the history length are changed by the call — the successful
prefix flex X persists. -/
theorem mgr_failure_state_cex :
    isFlexError (applyFlexes exMgrX "X Y".data).1 = true ∧
    (applyFlexes exMgrX "X Y".data).2.flexagon ≠ exMgrX.flexagon ∧
    (applyFlexes exMgrX "X Y".data).2.history.length ≠ exMgrX.history.length :=
  ⟨rfl, by decide, by decide⟩

/-- Witness for the amended claim C1 at concrete inputs. -/
theorem mgr_failure_state_witness :
    (applyFlex exMgrX "Z".data).2 = exMgrX ∧
    ∃ k, k < (splitSpaces "X Y".data).length ∧
      isFlexError (applyFlexesList exMgrX ((splitSpaces "X Y".data).take k)).1
        = false ∧
      (applyFlexes exMgrX "X Y".data).2 =
        (applyFlexesList exMgrX ((splitSpaces "X Y".data).take k)).2 ∧
      isFlexError
        (applyFlex (applyFlexesList exMgrX ((splitSpaces "X Y".data).take k)).2
          ((splitSpaces "X Y".data).getD k [])).1 = true :=
  ⟨(mgr_failure_state exMgrX "Z".data "X Y".data).1 rfl,
   (mgr_failure_state exMgrX "Z".data "X Y".data).2 rfl⟩

theorem applyFlexesList_error_reason :
    ∀ (names : List Str) (m : FlexagonManager) (e : FlexError),
    (applyFlexesList m names).1 = .error e → e.reason = .CantApplyFlex := by
  intro names
  induction names with
  | nil =>
    intro m e h
    simp [applyFlexesList] at h
  | cons n rest ih =>
    intro m e h
    rcases hr : applyFlex m n with ⟨r, m1⟩
    cases r with
    | error e2 =>
      have : (applyFlexesList m (n :: rest)).1 =
          Except.error (⟨.CantApplyFlex, n⟩ : FlexError) := by
        simp [applyFlexesList, hr]
      rw [this] at h
      cases h
      rfl
    | ok b =>
      have hstep : applyFlexesList m (n :: rest) = applyFlexesList m1 rest := by
        simp [applyFlexesList, hr]
      rw [hstep] at h
      exact ih m1 e h

/-- Claim C2 (amended): applyFlex reports a name missing from the flex set as
UnknownFlex, but applyFlexes rewraps every per-flex failure — unknown names
included — as a CantApplyFlex error naming the failing flex, so an
applyFlexes sequence containing an unknown name reports CantApplyFlex. -/
theorem unknown_flex_reason (m : FlexagonManager) (str1 str2 : Str)
    (e : FlexError) :
    (lookupFlex m.allFlexes (strippedName str1) = none →
      (applyFlex m str1).1 = .error ⟨.UnknownFlex, strippedName str1⟩) ∧
    ((applyFlexes m str2).1 = .error e → e.reason = .CantApplyFlex) := by
  constructor
  · intro h
    unfold applyFlex
    rw [h]
  · exact fun h => applyFlexesList_error_reason _ m e h

/-- Counterexample to claim C2 as stated: an applyFlexes call on a sequence
consisting of a flex name absent from the flex set returns an error tagged
CantApplyFlex, not UnknownFlex. -/
theorem unknown_flex_reason_cex :
    (applyFlexes exMgrX "Z".data).1 =
      .error ⟨.CantApplyFlex, "Z".data⟩ ∧
    FlexCode.CantApplyFlex ≠ FlexCode.UnknownFlex :=
  ⟨rfl, by decide⟩

/-- Witness for the amended claim C2 at concrete inputs. -/
theorem unknown_flex_reason_witness :
    (applyFlex exMgrX "Z".data).1 =
      .error ⟨.UnknownFlex, "Z".data⟩ ∧
    (⟨.CantApplyFlex, "Z".data⟩ : FlexError).reason = .CantApplyFlex :=
  ⟨(unknown_flex_reason exMgrX "Z".data "Z".data ⟨.CantApplyFlex, "Z".data⟩).1 rfl,
   (unknown_flex_reason exMgrX "Z".data "Z".data ⟨.CantApplyFlex, "Z".data⟩).2 rfl⟩

/-- Claim C8: checkForPrimeFlexes reorients only a copy: the manager state it
returns — current flexagon, flex sets, history — is exactly the input state
for every (flip, rightSteps) argument pair, and the returned names are the
prime flexes applicable on the reoriented copy. -/
theorem checkForPrimeFlexes_frame (m : FlexagonManager) (flip : Bool)
    (steps : Nat) :
    (checkForPrimeFlexes m flip steps).2 = m ∧
    (checkForPrimeFlexes m flip steps).1 =
      checkForFlexes (stepRight m.allFlexes steps
        (if flip then castApply m.allFlexes ['^'] m.flexagon else m.flexagon))
        m.primeFlexes :=
  ⟨rfl, rfl⟩

/-- Claim C9: for a flex string ending in '+' whose base name is in the flex
set, applyFlex strips the trailing '+', regenerates the needed input via that
flex's createPattern on the current flexagon, and applies the flex to the
regenerated input; for a flex string not ending in '+', the flex is applied
directly to the current flexagon with no structure generation. -/
theorem applyFlex_createPattern_flow (m : FlexagonManager) (str : Str)
    (fl : MFlex) :
    (endsInPlus str = true →
      lookupFlex m.allFlexes str.dropLast = some fl →
      applyFlex m str =
        finishApply m str str.dropLast fl (fl.createPattern m.flexagon)) ∧
    (endsInPlus str = false →
      lookupFlex m.allFlexes str = some fl →
      applyFlex m str = finishApply m str str fl m.flexagon) := by
  constructor
  · intro h1 h2
    have hs : strippedName str = str.dropLast := by simp [strippedName, h1]
    unfold applyFlex
    simp only [hs, h2, h1, if_true]
  · intro h1 h2
    have hs : strippedName str = str := by simp [strippedName, h1]
    unfold applyFlex
    simp only [hs, h2, h1, Bool.false_eq_true, if_false]

/-- Witness for claim C9 at concrete inputs: S+ regenerates before applying,
S applies directly. -/
theorem applyFlex_createPattern_flow_witness :
    applyFlex exMgrS ['S', '+'] =
      finishApply exMgrS ['S', '+'] ['S'] exFlexS
        (exFlexS.createPattern exMgrS.flexagon) ∧
    applyFlex exMgrS ['S'] = finishApply exMgrS ['S'] ['S'] exFlexS
      exMgrS.flexagon :=
  ⟨(applyFlex_createPattern_flow exMgrS ['S', '+'] exFlexS).1 rfl rfl,
   (applyFlex_createPattern_flow exMgrS ['S'] exFlexS).2 rfl rfl⟩

theorem cancelsRotate_nil (flex : Str) : cancelsRotate flex [] = false := by
  unfold cancelsRotate
  rw [show (([] : Str) == ['>']) = false from rfl,
      show (([] : Str) == ['<']) = false from rfl,
      show (([] : Str) == ['^']) = false from rfl]
  simp

theorem getD_last_eq (l : List Str) :
    l.getD (l.length - 1) [] = l.getLastD [] := by
  rw [List.getD_eq_getElem?_getD, List.getLastD_eq_getLast?,
      List.getLast?_eq_getElem?]

theorem getD_dropLast (l : List Str) (i : Nat) (h : i < l.length - 1) :
    l.dropLast.getD i [] = l.getD i [] := by
  rw [List.getD_eq_getElem?_getD, List.getD_eq_getElem?_getD,
      List.getElem?_dropLast, if_pos h]

theorem consolidateLoop_false (allflexes : List Str) (rest : List Str) :
    consolidateLoop allflexes false rest = allflexes ++ rest := by
  induction rest generalizing allflexes with
  | nil => simp [consolidateLoop]
  | cons f r ih =>
    show consolidateLoop (allflexes ++ [f]) false r = _
    rw [ih]
    simp

theorem consolidateLoop_spec (new : List Str) :
    ∀ all : List Str,
    ∃ k, k ≤ all.length ∧ k ≤ new.length ∧
      (∀ j, j < k →
        cancelsRotate (new.getD j []) (all.getD (all.length - 1 - j) []) = true) ∧
      consolidateLoop all true new = all.take (all.length - k) ++ new.drop k ∧
      (k = new.length ∨ k = all.length ∨
        cancelsRotate (new.getD k []) (all.getD (all.length - 1 - k) []) = false) := by
  induction new with
  | nil =>
    intro all
    refine ⟨0, Nat.zero_le _, Nat.zero_le _,
      fun j hj => absurd hj (Nat.not_lt_zero j), ?_, Or.inl rfl⟩
    show all = all.take (all.length - 0) ++ []
    simp
  | cons flex rest ih =>
    intro all
    cases hc : cancelsRotate flex (all.getLastD []) with
    | true =>
      have hall : all ≠ [] := by
        intro hnil
        rw [hnil] at hc
        rw [show ([] : List Str).getLastD [] = [] from rfl, cancelsRotate_nil] at hc
        exact Bool.noConfusion hc
      have hlen : all.dropLast.length = all.length - 1 := List.length_dropLast all
      have hlen1 : 1 ≤ all.length := by
        cases all with
        | nil => exact absurd rfl hall
        | cons a l => simp
      obtain ⟨k, h1, h2, h3, h4, h5⟩ := ih all.dropLast
      refine ⟨k + 1, by omega, by simpa using Nat.succ_le_succ h2, ?_, ?_, ?_⟩
      · intro j hj
        cases j with
        | zero =>
          rw [List.getD_cons_zero, Nat.sub_zero, getD_last_eq]
          exact hc
        | succ i =>
          have hik : i < k := by omega
          have h3i := h3 i hik
          have hidx : all.dropLast.length - 1 - i < all.length - 1 := by omega
          rw [getD_dropLast all _ hidx] at h3i
          rw [List.getD_cons_succ]
          have heq : all.length - 1 - (i + 1) = all.dropLast.length - 1 - i := by
            omega
          rw [heq]
          exact h3i
      · show consolidateLoop all true (flex :: rest) = _
        unfold consolidateLoop
        have harith : all.length - 1 - k = all.length - (k + 1) := by omega
        rw [hc, if_pos rfl, h4, List.drop_succ_cons, hlen, List.dropLast_eq_take,
            List.take_take, min_eq_left (Nat.sub_le _ _), harith]
        exact if_pos rfl
      · rcases h5 with h | h | h
        · left
          rw [List.length_cons, h]
        · right; left
          omega
        · by_cases hk : k + 1 = all.length
          · right; left
            exact hk
          · right; right
            have hidx : all.dropLast.length - 1 - k < all.length - 1 := by omega
            rw [getD_dropLast all _ hidx] at h
            rw [List.getD_cons_succ]
            have heq : all.length - 1 - (k + 1) = all.dropLast.length - 1 - k := by
              omega
            rw [heq]
            exact h
    | false =>
      refine ⟨0, Nat.zero_le _, Nat.zero_le _,
        fun j hj => absurd hj (Nat.not_lt_zero j), ?_, ?_⟩
      · show consolidateLoop all true (flex :: rest) = _
        unfold consolidateLoop
        rw [hc, if_neg Bool.false_ne_true, consolidateLoop_false]
        simp
      · right; right
        rw [List.getD_cons_zero, Nat.sub_zero, getD_last_eq]
        exact hc

/-- Claim C10: addAndConsolidate returns oldFlexes with its last k elements
removed followed by newFlexes with its first k elements removed, for some
k ≥ 0, where each of the k cancelled junction pairs (last remaining old
element, next new element) is (>,<), (<,>) or (^,^); cancellation happens
only at the junction — as soon as a new element is appended without
cancelling (or either list is exhausted), every remaining new element is
appended unchanged. -/
theorem addAndConsolidate_junction (oldFlexes newFlexes : List Str) :
    ∃ k, k ≤ oldFlexes.length ∧ k ≤ newFlexes.length ∧
      (∀ j, j < k →
        cancelsRotate (newFlexes.getD j [])
          (oldFlexes.getD (oldFlexes.length - 1 - j) []) = true) ∧
      addAndConsolidate oldFlexes newFlexes =
        oldFlexes.take (oldFlexes.length - k) ++ newFlexes.drop k ∧
      (k = newFlexes.length ∨ k = oldFlexes.length ∨
        cancelsRotate (newFlexes.getD k [])
          (oldFlexes.getD (oldFlexes.length - 1 - k) []) = false) :=
  consolidateLoop_spec newFlexes oldFlexes

theorem patTurnOver_patTurnOver (p : Pat) : patTurnOver (patTurnOver p) = p := by
  induction p with
  | leaf id => simp [patTurnOver]
  | pair a b iha ihb => simp [patTurnOver, iha, ihb]

theorem patMirror_patMirror (p : Pat) : patMirror (patMirror p) = p := by
  induction p with
  | leaf id => simp [patMirror]
  | pair a b iha ihb => simp [patMirror, iha, ihb]

theorem patTurnOver_patMirror (p : Pat) : patTurnOver (patMirror p) = patNeg p := by
  induction p with
  | leaf id => simp [patMirror, patTurnOver, patNeg]
  | pair a b iha ihb => simp [patMirror, patTurnOver, patNeg, iha, ihb]

theorem patMirror_patTurnOver (p : Pat) : patMirror (patTurnOver p) = patNeg p := by
  induction p with
  | leaf id => simp [patMirror, patTurnOver, patNeg]
  | pair a b iha ihb => simp [patMirror, patTurnOver, patNeg, iha, ihb]

theorem patMirror_patNeg (p : Pat) : patMirror (patNeg p) = patTurnOver p := by
  induction p with
  | leaf id => simp [patMirror, patTurnOver, patNeg]
  | pair a b iha ihb => simp [patMirror, patTurnOver, patNeg, iha, ihb]

theorem patTurnOver_patNeg (p : Pat) : patTurnOver (patNeg p) = patMirror p := by
  induction p with
  | leaf id => simp [patMirror, patTurnOver, patNeg]
  | pair a b iha ihb => simp [patMirror, patTurnOver, patNeg, iha, ihb]

theorem turnOver_turnOver (f : Flexagon) : turnOver (turnOver f) = f := by
  unfold turnOver
  have hcomp : patTurnOver ∘ patTurnOver = id := funext patTurnOver_patTurnOver
  rw [List.map_reverse, List.reverse_reverse, List.map_map, hcomp, List.map_id]

theorem reflectRing_reflectRing (f : Flexagon) :
    reflectRing (reflectRing f) = f := by
  unfold reflectRing
  have hcomp : patMirror ∘ patMirror = id := funext patMirror_patMirror
  rw [List.map_reverse, List.reverse_reverse, List.map_map, hcomp, List.map_id]

theorem turnOver_reflectRing (f : Flexagon) :
    turnOver (reflectRing f) = f.map patNeg := by
  unfold turnOver reflectRing
  have hcomp : patTurnOver ∘ patMirror = patNeg := funext patTurnOver_patMirror
  rw [List.map_reverse, List.reverse_reverse, List.map_map, hcomp]

theorem reflectRing_turnOver (f : Flexagon) :
    reflectRing (turnOver f) = f.map patNeg := by
  unfold turnOver reflectRing
  have hcomp : patMirror ∘ patTurnOver = patNeg := funext patMirror_patTurnOver
  rw [List.map_reverse, List.reverse_reverse, List.map_map, hcomp]

theorem reflectRing_mapNeg (f : Flexagon) :
    reflectRing (f.map patNeg) = turnOver f := by
  unfold turnOver reflectRing
  have hcomp : patMirror ∘ patNeg = patTurnOver := funext patMirror_patNeg
  rw [List.map_map, hcomp]

theorem turnOver_mapNeg (f : Flexagon) :
    turnOver (f.map patNeg) = reflectRing f := by
  unfold turnOver reflectRing
  have hcomp : patTurnOver ∘ patNeg = patMirror := funext patTurnOver_patNeg
  rw [List.map_map, hcomp]

theorem length_turnOver (f : Flexagon) : (turnOver f).length = f.length := by
  simp [turnOver]

theorem length_reflectRing (f : Flexagon) :
    (reflectRing f).length = f.length := by
  simp [reflectRing]

theorem turnOver_rotate (f : Flexagon) (k : Nat) :
    turnOver (f.rotate k) =
      (turnOver f).rotate (f.length - k % f.length) := by
  unfold turnOver
  rw [List.map_rotate, List.reverse_rotate, List.length_map]

theorem reflectRing_rotate (f : Flexagon) (k : Nat) :
    reflectRing (f.rotate k) =
      (reflectRing f).rotate (f.length - k % f.length) := by
  unfold reflectRing
  rw [List.map_rotate, List.reverse_rotate, List.length_map]

theorem mem_symImages {f x : Flexagon} :
    x ∈ symImages f ↔ ∃ i j : Bool, ∃ k, k < f.length ∧ x = applySym i j k f := by
  simp only [symImages, List.mem_append, List.mem_map, List.mem_range]
  constructor
  · rintro (((⟨k, hk, rfl⟩ | ⟨k, hk, rfl⟩) | ⟨k, hk, rfl⟩) | ⟨k, hk, rfl⟩)
    · exact ⟨false, false, k, hk, rfl⟩
    · exact ⟨false, true, k, hk, rfl⟩
    · exact ⟨true, false, k, hk, rfl⟩
    · exact ⟨true, true, k, hk, rfl⟩
  · rintro ⟨i, j, k, hk, rfl⟩
    cases i <;> cases j
    · exact Or.inl (Or.inl (Or.inl ⟨k, hk, rfl⟩))
    · exact Or.inl (Or.inl (Or.inr ⟨k, hk, rfl⟩))
    · exact Or.inl (Or.inr ⟨k, hk, rfl⟩)
    · exact Or.inr ⟨k, hk, rfl⟩

theorem applySym_turnOver (i j : Bool) (k : Nat) (f : Flexagon) :
    applySym i j k (turnOver f) = applySym i (!j) k f := by
  cases j <;> simp [applySym, turnOver_turnOver]

theorem applySym_reflectRing (i j : Bool) (k : Nat) (f : Flexagon) :
    applySym i j k (reflectRing f) = applySym (!i) j k f := by
  cases i <;> cases j <;>
    simp [applySym, reflectRing_reflectRing, turnOver_reflectRing,
      reflectRing_turnOver, reflectRing_mapNeg, turnOver_mapNeg]

theorem symImages_turnOver (f x : Flexagon) :
    x ∈ symImages (turnOver f) ↔ x ∈ symImages f := by
  rw [mem_symImages, mem_symImages]
  constructor
  · rintro ⟨i, j, k, hk, rfl⟩
    rw [length_turnOver] at hk
    exact ⟨i, !j, k, hk, (applySym_turnOver i j k f).symm ▸ rfl⟩
  · rintro ⟨i, j, k, hk, rfl⟩
    refine ⟨i, !j, k, by rwa [length_turnOver], ?_⟩
    rw [applySym_turnOver]
    simp

theorem symImages_reflectRing (f x : Flexagon) :
    x ∈ symImages (reflectRing f) ↔ x ∈ symImages f := by
  rw [mem_symImages, mem_symImages]
  constructor
  · rintro ⟨i, j, k, hk, rfl⟩
    rw [length_reflectRing] at hk
    exact ⟨!i, j, k, hk, (applySym_reflectRing i j k f).symm ▸ rfl⟩
  · rintro ⟨i, j, k, hk, rfl⟩
    refine ⟨!i, j, k, by rwa [length_reflectRing], ?_⟩
    rw [applySym_reflectRing]
    simp

theorem applySym_rotate_reduce (i j : Bool) (k m : Nat) (f : Flexagon)
    (hf : f ≠ []) :
    ∃ n, n < f.length ∧ applySym i j k (f.rotate m) = applySym i j n f := by
  have hlen0 : 0 < f.length := List.length_pos.2 hf
  cases i <;> cases j
  · refine ⟨(m + k) % f.length, Nat.mod_lt _ hlen0, ?_⟩
    show (f.rotate m).rotate k = f.rotate ((m + k) % f.length)
    rw [List.rotate_rotate, List.rotate_mod]
  · refine ⟨(f.length - m % f.length + k) % f.length, Nat.mod_lt _ hlen0, ?_⟩
    show (turnOver (f.rotate m)).rotate k = (turnOver f).rotate _
    rw [turnOver_rotate, List.rotate_rotate]
    have hmod := List.rotate_mod (turnOver f) (f.length - m % f.length + k)
    rw [length_turnOver] at hmod
    rw [hmod]
  · refine ⟨(f.length - m % f.length + k) % f.length, Nat.mod_lt _ hlen0, ?_⟩
    show (reflectRing (f.rotate m)).rotate k = (reflectRing f).rotate _
    rw [reflectRing_rotate, List.rotate_rotate]
    have hmod := List.rotate_mod (reflectRing f) (f.length - m % f.length + k)
    rw [length_reflectRing] at hmod
    rw [hmod]
  · refine ⟨(m + k) % f.length, Nat.mod_lt _ hlen0, ?_⟩
    show (reflectRing (turnOver (f.rotate m))).rotate k =
      (reflectRing (turnOver f)).rotate _
    rw [reflectRing_turnOver, reflectRing_turnOver, ← List.map_rotate,
        List.rotate_rotate]
    have hmod := List.rotate_mod (f.map patNeg) (m + k)
    rw [List.length_map] at hmod
    rw [hmod, List.map_rotate]

theorem symImages_rotate_subset (f : Flexagon) (m : Nat) (x : Flexagon)
    (hx : x ∈ symImages (f.rotate m)) : x ∈ symImages f := by
  by_cases hf : f = []
  · subst hf
    rwa [List.rotate_nil] at hx
  · rcases mem_symImages.1 hx with ⟨i, j, k, hk, rfl⟩
    obtain ⟨n, hn, heq⟩ := applySym_rotate_reduce i j k m f hf
    exact mem_symImages.2 ⟨i, j, n, hn, heq⟩

theorem rotate_inverse (f : Flexagon) (m : Nat) (hf : f ≠ []) :
    (f.rotate m).rotate (f.length - m % f.length) = f := by
  have hlen0 : 0 < f.length := List.length_pos.2 hf
  have h1 : m % f.length < f.length := Nat.mod_lt _ hlen0
  have h2 := Nat.div_add_mod m f.length
  rw [List.rotate_rotate]
  have h4 : f.length * (m / f.length + 1) =
      f.length * (m / f.length) + f.length := by ring
  have h3 : m + (f.length - m % f.length) = f.length * (m / f.length + 1) := by
    omega
  rw [h3, ← List.rotate_mod, Nat.mul_mod_right, List.rotate_zero]

theorem symImages_rotate (f : Flexagon) (m : Nat) (x : Flexagon) :
    x ∈ symImages (f.rotate m) ↔ x ∈ symImages f := by
  by_cases hf : f = []
  · subst hf
    rw [List.rotate_nil]
  · constructor
    · exact symImages_rotate_subset f m x
    · intro hx
      apply symImages_rotate_subset (f.rotate m) (f.length - m % f.length) x
      rwa [rotate_inverse f m hf]

theorem canonicalKey_eq_of_symImages_iff {f g : Flexagon}
    (h : ∀ x, x ∈ symImages f ↔ x ∈ symImages g) :
    canonicalKey f = canonicalKey g := by
  unfold canonicalKey
  apply le_antisymm
  · exact List.le_minimum_of_forall_le (fun a ha => by
      rcases List.mem_map.1 ha with ⟨y, hy, rfl⟩
      exact List.minimum_le_of_mem' (List.mem_map.2 ⟨y, (h y).2 hy, rfl⟩))
  · exact List.le_minimum_of_forall_le (fun a ha => by
      rcases List.mem_map.1 ha with ⟨y, hy, rfl⟩
      exact List.minimum_le_of_mem' (List.mem_map.2 ⟨y, (h y).1 hy, rfl⟩))

theorem canonicalKey_applySym (i j : Bool) (k : Nat) (f : Flexagon) :
    canonicalKey (applySym i j k f) = canonicalKey f := by
  apply canonicalKey_eq_of_symImages_iff
  intro x
  cases i <;> cases j
  · show x ∈ symImages (f.rotate k) ↔ x ∈ symImages f
    exact symImages_rotate f k x
  · show x ∈ symImages ((turnOver f).rotate k) ↔ x ∈ symImages f
    rw [symImages_rotate, symImages_turnOver]
  · show x ∈ symImages ((reflectRing f).rotate k) ↔ x ∈ symImages f
    rw [symImages_rotate, symImages_reflectRing]
  · show x ∈ symImages ((reflectRing (turnOver f)).rotate k) ↔ x ∈ symImages f
    rw [symImages_rotate, symImages_reflectRing, symImages_turnOver]

theorem findIdx?_isSome_of_mem {keys : List (WithTop (List Int))}
    {key : WithTop (List Int)} (h : key ∈ keys) :
    (keys.findIdx? (fun x => x == key)).isSome = true := by
  rcases hf : keys.findIdx? (fun x => x == key) with _ | i
  · rw [List.findIdx?_eq_none_iff] at hf
    have := hf key h
    simp at this
  · rfl

theorem findIdx?_eq_none_of_not_mem {keys : List (WithTop (List Int))}
    {key : WithTop (List Int)} (h : key ∉ keys) :
    keys.findIdx? (fun x => x == key) = none := by
  rw [List.findIdx?_eq_none_iff]
  intro x hx
  exact beq_eq_false_iff_ne.2 (fun e => h (e ▸ hx))

/-- Claim C4: for every flexagon F, every tracker state, and every symmetry
image of F (rotation, reflection, turn-over, alone or in combination): the
image canonicalizes to F's key; if F's symmetry equivalence class is already
tracked, findMaybeAdd on the image returns the stored index of that class
and leaves the tracker — hence getTotalStates — unchanged; if the class is
new, the call returns none, appends exactly one key and increments
getTotalStates by 1, after which the class is tracked, so none is returned
exactly once per class. -/
theorem tracker_findMaybeAdd_dedup (F : Flexagon) (t : Tracker) (i j : Bool)
    (k : Nat) :
    canonicalKey (applySym i j k F) = canonicalKey F ∧
    (canonicalKey F ∈ t.keys →
      Tracker.findMaybeAdd t (applySym i j k F) =
        (t.keys.findIdx? (fun x => x == canonicalKey F), t) ∧
      (t.keys.findIdx? (fun x => x == canonicalKey F)).isSome = true) ∧
    (canonicalKey F ∉ t.keys →
      Tracker.findMaybeAdd t (applySym i j k F) =
        (none, ⟨t.keys ++ [canonicalKey F]⟩) ∧
      Tracker.getTotalStates ⟨t.keys ++ [canonicalKey F]⟩ =
        Tracker.getTotalStates t + 1 ∧
      canonicalKey F ∈ t.keys ++ [canonicalKey F]) := by
  have hkey := canonicalKey_applySym i j k F
  refine ⟨hkey, ?_, ?_⟩
  · intro hmem
    have hsome := findIdx?_isSome_of_mem hmem
    refine ⟨?_, hsome⟩
    simp only [Tracker.findMaybeAdd, hkey]
    rcases hf : t.keys.findIdx? (fun x => x == canonicalKey F) with _ | idx
    · rw [hf] at hsome
      exact Bool.noConfusion hsome
    · rfl
  · intro hmem
    have hnone : t.keys.findIdx? (fun x => x == canonicalKey F) = none :=
      findIdx?_eq_none_of_not_mem hmem
    refine ⟨?_, ?_, ?_⟩
    · simp only [Tracker.findMaybeAdd, hkey, hnone]
    · simp [Tracker.getTotalStates]
    · simp

/-- Witness for claim C4 at concrete inputs: a combined reflect, turn-over
and rotate image of a tracked flexagon is found at index 0, and a new
flexagon is appended exactly once. -/
theorem tracker_findMaybeAdd_dedup_witness :
    canonicalKey (applySym true true 1 trackerEx) = canonicalKey trackerEx ∧
    Tracker.findMaybeAdd (makeTracker trackerEx)
        (applySym true true 1 trackerEx) =
      ((makeTracker trackerEx).keys.findIdx?
        (fun x => x == canonicalKey trackerEx), makeTracker trackerEx) ∧
    Tracker.findMaybeAdd ⟨[]⟩ (applySym false false 0 trackerEx) =
      (none, ⟨[canonicalKey trackerEx]⟩) :=
  ⟨(tracker_findMaybeAdd_dedup trackerEx (makeTracker trackerEx) true true 1).1,
   ((tracker_findMaybeAdd_dedup trackerEx (makeTracker trackerEx) true true
      1).2.1 (by simp [makeTracker])).1,
   ((tracker_findMaybeAdd_dedup trackerEx ⟨[]⟩ false false 0).2.2
      (by simp)).1⟩

/-- Claim C5: the flexagon [[1,2],3,[4,5],6], its rotation [[4,5],6,[1,2],3]
and its flip-and-rotate [-3,[-2,-1],-6,[-5,-4]] all canonicalize to the same
tracked index: after tracking the first, findMaybeAdd on each of the other
two returns index 0 and leaves the tracker (hence getTotalStates = 1)
unchanged. -/
theorem tracker_symmetry_closure :
    Tracker.getTotalStates (makeTracker trackerEx) = 1 ∧
    Tracker.findMaybeAdd (makeTracker trackerEx) trackerExRotated =
      (some 0, makeTracker trackerEx) ∧
    Tracker.findMaybeAdd (makeTracker trackerEx) trackerExFlipped =
      (some 0, makeTracker trackerEx) := by
  refine ⟨rfl, ?_, ?_⟩ <;> decide

set_option maxHeartbeats 8000000 in
/-- Claim C6: starting an Explore on the flexagon [[1,2],3,[4,5],6] with the
5-flex set {>,<,^,A,B} of the worked scenario, repeatedly calling checkNext
terminates — after 21 expansions the frontier is empty, so the next call
returns false — and at termination getTotalStates and getExploredStates both
equal 21. -/
theorem explore_completeness :
    (Explore.run 21 (makeExplore trackerEx exploreFlexes)).queue = [] ∧
    (Explore.checkNext
      (Explore.run 21 (makeExplore trackerEx exploreFlexes))).1 = false ∧
    Explore.getTotalStates
      (Explore.run 21 (makeExplore trackerEx exploreFlexes)) = 21 ∧
    Explore.getExploredStates
      (Explore.run 21 (makeExplore trackerEx exploreFlexes)) = 21 := by
  refine ⟨?_, ?_, ?_, ?_⟩ <;> decide

theorem isDigitCh_digitChar (d : Nat) (h : d < 10) :
    isDigitCh (digitChar d) = true := by
  interval_cases d <;> rfl

theorem digitVal_digitChar (d : Nat) (h : d < 10) :
    digitVal (digitChar d) = d := by
  interval_cases d <;> rfl

theorem natDigitsAux_digits (fuel : Nat) :
    ∀ n, n < fuel → natDigitsAux n fuel ≠ [] ∧
      ∀ c ∈ natDigitsAux n fuel, isDigitCh c = true := by
  induction fuel with
  | zero => intro n h; omega
  | succ f ih =>
    intro n h
    by_cases h10 : n < 10
    · refine ⟨by simp [natDigitsAux, h10], ?_⟩
      intro c hc
      simp [natDigitsAux, h10] at hc
      subst hc
      exact isDigitCh_digitChar n h10
    · have hdiv : n / 10 < n := Nat.div_lt_self (by omega) (by omega)
      have hrec := ih (n / 10) (by omega)
      refine ⟨by simp [natDigitsAux, h10], ?_⟩
      intro c hc
      simp only [natDigitsAux, h10, if_false, List.mem_append,
        List.mem_singleton] at hc
      rcases hc with hc | hc
      · exact hrec.2 c hc
      · subst hc
        exact isDigitCh_digitChar (n % 10) (Nat.mod_lt _ (by omega))

theorem natDigitsAux_val (fuel : Nat) :
    ∀ n, n < fuel →
      (natDigitsAux n fuel).foldl (fun a c => 10 * a + digitVal c) 0 = n := by
  induction fuel with
  | zero => intro n h; omega
  | succ f ih =>
    intro n h
    by_cases h10 : n < 10
    · simp [natDigitsAux, h10]
      exact digitVal_digitChar n h10
    · have hdiv : n / 10 < n := Nat.div_lt_self (by omega) (by omega)
      have hrec := ih (n / 10) (by omega)
      have hmod : n % 10 < 10 := Nat.mod_lt _ (by omega)
      simp only [natDigitsAux, h10, if_false, List.foldl_append, hrec,
        List.foldl_cons, List.foldl_nil, digitVal_digitChar _ hmod]
      omega

theorem takeWhile_digits_append (l rest : Str)
    (hl : ∀ c ∈ l, isDigitCh c = true) (hr : digitStart rest = false) :
    (l ++ rest).takeWhile isDigitCh = l ∧
    (l ++ rest).dropWhile isDigitCh = rest := by
  induction l with
  | nil =>
    simp only [List.nil_append]
    cases rest with
    | nil => simp
    | cons c r =>
      simp only [digitStart] at hr
      simp [List.takeWhile_cons, List.dropWhile_cons, hr]
  | cons c l ih =>
    have hc : isDigitCh c = true := hl c (by simp)
    have ih2 := ih (fun x hx => hl x (by simp [hx]))
    simp [List.takeWhile_cons, List.dropWhile_cons, hc, ih2.1, ih2.2]

theorem parseNat_natDigits (n : Nat) (rest : Str)
    (hr : digitStart rest = false) :
    parseNat (natDigits n ++ rest) = some (n, rest) := by
  have hd := natDigitsAux_digits (n + 1) n (by omega)
  have hv := natDigitsAux_val (n + 1) n (by omega)
  have htw := takeWhile_digits_append (natDigits n) rest hd.2 hr
  simp only [parseNat, htw.1, htw.2]
  rw [if_neg (by simpa using hd.1)]
  rw [show natDigits n = natDigitsAux n (n + 1) from rfl, hv]

theorem parseInt_printInt (i : Int) (rest : Str)
    (hr : digitStart rest = false) :
    parseInt (printInt i ++ rest) = some (i, rest) := by
  by_cases hneg : i < 0
  · have hsh : printInt i ++ rest = '-' :: (natDigits i.natAbs ++ rest) := by
      simp [printInt, hneg]
    rw [hsh]
    simp only [parseInt]
    rw [if_pos trivial, parseNat_natDigits _ _ hr]
    have hcast : -((i.natAbs : Int)) = i := by omega
    simp [hcast]
    rw [abs_of_neg hneg, neg_neg]
  · have hsh : printInt i ++ rest = natDigits i.natAbs ++ rest := by
      simp [printInt, hneg]
    have hd : natDigits i.natAbs ≠ [] ∧
        ∀ c ∈ natDigits i.natAbs, isDigitCh c = true :=
      natDigitsAux_digits (i.natAbs + 1) i.natAbs (by omega)
    rcases hne : natDigits i.natAbs with _ | ⟨c, cs⟩
    · exact absurd hne hd.1
    · have hcdig : isDigitCh c = true := hd.2 c (by rw [hne]; simp)
      have hcne : ¬(c = '-') := by
        intro e
        rw [e] at hcdig
        exact Bool.noConfusion hcdig
      have hpn := parseNat_natDigits i.natAbs rest hr
      rw [hne] at hpn
      rw [hsh, hne, List.cons_append]
      simp only [parseInt, if_neg hcne, ← List.cons_append, hpn,
        Option.map_some, Option.some.injEq, Prod.mk.injEq]
      have hcast : (i.natAbs : Int) = i := by omega
      simp [hcast]

theorem skipSp_cons_of_ne (c : Char) (l : Str) (h : ¬(c = ' ')) :
    skipSp (c :: l) = c :: l := by
  simp [skipSp, List.dropWhile_cons, h]

theorem skipSp_space (l : Str) : skipSp (' ' :: l) = skipSp l := by
  simp [skipSp, List.dropWhile_cons]

theorem isDigitCh_not_special (c : Char) (h : isDigitCh c = true) :
    ¬(c = ' ') ∧ ¬(c = '[') ∧ ¬(c = '-') := by
  refine ⟨?_, ?_, ?_⟩ <;> intro e <;> rw [e] at h <;> exact Bool.noConfusion h

theorem printPat_shape (p : Pat) :
    ∃ c t, printPat p = c :: t ∧
      (c = '[' ∨ (c = '-' ∧ digitStart t = true) ∨ isDigitCh c = true) := by
  cases p with
  | pair a b => exact ⟨'[', _, rfl, Or.inl rfl⟩
  | leaf id =>
    have hd : natDigits id.natAbs ≠ [] ∧
        ∀ c ∈ natDigits id.natAbs, isDigitCh c = true :=
      natDigitsAux_digits _ _ (by omega)
    rcases hne : natDigits id.natAbs with _ | ⟨c, cs⟩
    · exact absurd hne hd.1
    · have hcdig : isDigitCh c = true := hd.2 c (by rw [hne]; simp)
      by_cases hneg : id < 0
      · refine ⟨'-', c :: cs, ?_, Or.inr (Or.inl ⟨rfl, ?_⟩)⟩
        · simp [printPat, printInt, hneg, hne]
        · simp [digitStart, hcdig]
      · refine ⟨c, cs, ?_, Or.inr (Or.inr hcdig)⟩
        simp [printPat, printInt, hneg, hne]

theorem skipSp_printPat (p : Pat) (X : Str) :
    skipSp (printPat p ++ X) = printPat p ++ X := by
  obtain ⟨c, t, hpt, hc⟩ := printPat_shape p
  rw [hpt, List.cons_append]
  apply skipSp_cons_of_ne
  rcases hc with h | ⟨h, _⟩ | h
  · subst h; decide
  · subst h; decide
  · exact (isDigitCh_not_special c h).1

theorem isPatStart_printPat (p : Pat) (X : Str) :
    isPatStart (printPat p ++ X) = true := by
  obtain ⟨c, t, hpt, hc⟩ := printPat_shape p
  rw [hpt, List.cons_append]
  rcases hc with h | ⟨h, hd⟩ | h
  · subst h; simp [isPatStart]
  · subst h
    simp only [isPatStart, if_neg (by decide : ¬('-' = '[')), if_pos rfl]
    cases t with
    | nil => exact Bool.noConfusion hd
    | cons c2 t2 => simpa [digitStart] using hd
  · have hs := isDigitCh_not_special c h
    simp [isPatStart, hs.2.1, hs.2.2, h]

theorem parsePat_printPat :
    ∀ (p : Pat) (fuel : Nat) (rest : Str),
    patSize p ≤ fuel → digitStart rest = false →
    parsePat fuel (printPat p ++ rest) = some (p, rest) := by
  intro p
  induction p with
  | leaf id =>
    intro fuel rest hf hr
    rcases fuel with _ | f
    · simp [patSize] at hf
    · have hd : natDigits id.natAbs ≠ [] ∧
          ∀ c ∈ natDigits id.natAbs, isDigitCh c = true :=
        natDigitsAux_digits _ _ (by omega)
      rcases hne : natDigits id.natAbs with _ | ⟨c, cs⟩
      · exact absurd hne hd.1
      · have hcdig : isDigitCh c = true := hd.2 c (by rw [hne]; simp)
        have hpi := parseInt_printInt id rest hr
        by_cases hneg : id < 0
        · have hsh : printPat (Pat.leaf id) ++ rest =
              '-' :: (natDigits id.natAbs ++ rest) := by
            simp [printPat, printInt, hneg]
          rw [hsh]
          simp only [parsePat]
          rw [if_neg (by decide : ¬('-' = '['))]
          rw [show '-' :: (natDigits id.natAbs ++ rest) =
              printPat (Pat.leaf id) ++ rest from hsh.symm]
          simp only [printPat] at hpi ⊢
          rw [hpi]
          rfl
        · have hsh : printPat (Pat.leaf id) ++ rest =
              c :: (cs ++ rest) := by
            simp [printPat, printInt, hneg, hne]
          rw [hsh]
          simp only [parsePat]
          rw [if_neg ((isDigitCh_not_special c hcdig).2.1)]
          rw [show c :: (cs ++ rest) = printPat (Pat.leaf id) ++ rest
              from hsh.symm]
          simp only [printPat] at hpi ⊢
          rw [hpi]
          rfl
  | pair a b iha ihb =>
    intro fuel rest hf hr
    rcases fuel with _ | f
    · simp [patSize] at hf
    · have hfa : patSize a ≤ f := by simp [patSize] at hf; omega
      have hfb : patSize b ≤ f := by simp [patSize] at hf; omega
      have hshape : printPat (Pat.pair a b) ++ rest =
          '[' :: (printPat a ++ (',' :: (printPat b ++ (']' :: rest)))) := by
        simp [printPat]
      rw [hshape]
      simp only [parsePat]
      rw [if_pos trivial, skipSp_printPat, iha f _ hfa (by rfl)]
      simp only [Option.some_bind]
      rw [skipSp_cons_of_ne ',' _ (by decide)]
      rw [show expectComma (',' :: (printPat b ++ (']' :: rest))) =
          some (printPat b ++ (']' :: rest)) from rfl]
      simp only [Option.some_bind]
      rw [skipSp_printPat, ihb f _ hfb (by rfl)]
      simp only [Option.some_bind]
      rw [skipSp_cons_of_ne ']' _ (by decide)]
      rw [show expectClose (']' :: rest) = some rest from rfl]
      rfl

theorem parseDir_dirChar (d : Dir) (X : Str) :
    parseDir (dirChar d :: X) = some (d, X) := by
  cases d <;> rfl

theorem skipSp_dirChar (d : Dir) (X : Str) :
    skipSp (dirChar d :: X) = dirChar d :: X := by
  cases d <;> rfl

theorem parseConnecteds_space (f : Nat) (X : Str) :
    parseConnecteds (f + 1) (' ' :: X) = parseConnecteds (f + 1) X := by
  simp only [parseConnecteds, skipSp_space]

theorem printPat_length_ge (p : Pat) : patSize p ≤ (printPat p).length := by
  induction p with
  | leaf id =>
    have hd : natDigits id.natAbs ≠ [] ∧
        ∀ c ∈ natDigits id.natAbs, isDigitCh c = true :=
      natDigitsAux_digits _ _ (by omega)
    rcases hne : natDigits id.natAbs with _ | ⟨c, cs⟩
    · exact absurd hne hd.1
    · by_cases hneg : id < 0 <;>
        simp [patSize, printPat, printInt, hneg, hne]
  | pair a b iha ihb =>
    simp only [patSize, printPat, List.length_cons, List.length_append]
    omega

theorem printConnected_fuel (l : List ConnectedPat) :
    connFuel l ≤ (printConnected l).length + 1 := by
  induction l with
  | nil => simp [connFuel, printConnected]
  | cons c cs ih =>
    have := printPat_length_ge c.pat
    simp only [connFuel, printConnected, List.length_append, List.length_cons]
    omega

theorem parseConnecteds_printConnected :
    ∀ (l : List ConnectedPat) (fuel : Nat) (rest : Str),
    connFuel l ≤ fuel → isPatStart (skipSp rest) = false →
    parseConnecteds fuel (printConnected l ++ rest) = some (l, skipSp rest) := by
  intro l
  induction l with
  | nil =>
    intro fuel rest hf hstop
    rcases fuel with _ | f
    · simp [connFuel] at hf
    · simp only [printConnected, List.nil_append, parseConnecteds, hstop,
        Bool.false_eq_true, if_false]
  | cons c cs ih =>
    intro fuel rest hf hstop
    rcases fuel with _ | f
    · simp [connFuel] at hf
    · have hfa : patSize c.pat ≤ f := by simp [connFuel] at hf; omega
      have hfs : connFuel cs ≤ f := by simp [connFuel] at hf; omega
      have hshape : printConnected (c :: cs) ++ rest =
          printPat c.pat ++
            (' ' :: dirChar c.dir :: ' ' :: (printConnected cs ++ rest)) := by
        simp [printConnected]
      rw [hshape]
      simp only [parseConnecteds]
      rw [skipSp_printPat, isPatStart_printPat, if_pos rfl,
          parsePat_printPat c.pat f _ hfa (by rfl)]
      simp only [Option.some_bind]
      rw [skipSp_space, skipSp_dirChar, parseDir_dirChar]
      simp only [Option.some_bind]
      rcases f with _ | f2
      · have hpos : 1 ≤ connFuel cs := by
          cases cs <;> simp [connFuel]
        omega
      · rw [parseConnecteds_space, ih (f2 + 1) rest hfs hstop]
        rfl

theorem parseRem_remChars (r : Remainder) (X : Str) :
    parseRem (remChars r ++ X) = some (r, X) := by
  rcases r with ⟨neg, letter⟩
  cases neg <;> cases letter <;> rfl

theorem skipSp_remChars (r : Remainder) (X : Str) :
    skipSp (remChars r ++ X) = remChars r ++ X := by
  rcases r with ⟨neg, letter⟩
  cases neg <;> cases letter <;> rfl

theorem parseRem_remChars_nil (r : Remainder) :
    parseRem (remChars r) = some (r, []) := by
  rcases r with ⟨neg, letter⟩
  cases neg <;> cases letter <;> rfl

theorem skipSp_remChars_nil (r : Remainder) :
    skipSp (remChars r) = remChars r := by
  rcases r with ⟨neg, letter⟩
  cases neg <;> cases letter <;> rfl

theorem isPatStart_remChars (r : Remainder) :
    isPatStart (remChars r) = false := by
  rcases r with ⟨neg, letter⟩
  cases neg <;> cases letter <;> rfl

theorem expectSlash_slash (Y : Str) : expectSlash ('/' :: Y) = some Y := rfl

/-- Claim C7: serialization and parsing of atomic patterns round-trip — for
every AtomicPattern p, stringToAtomicPattern (atomicPatternToString p)
parses back to exactly p, and hence every parsed pattern prints back to its
canonical string form. -/
theorem atomic_roundtrip (p : AtomicPattern) :
    stringToAtomicPattern (atomicPatternToString p) = some p := by
  rcases p with ⟨oL, L, R, oR⟩
  have hterm1 :
      isPatStart (skipSp ('/' :: (' ' :: (printConnected R ++ remChars oR))))
        = false := by
    rw [skipSp_cons_of_ne '/' _ (by decide)]
    rfl
  have hterm2 : isPatStart (skipSp (remChars oR)) = false := by
    rw [skipSp_remChars_nil]
    exact isPatStart_remChars oR
  unfold stringToAtomicPattern atomicPatternToString
  rw [skipSp_remChars, parseRem_remChars]
  simp only [Option.some_bind]
  rw [parseConnecteds_space,
      parseConnecteds_printConnected L _ _
        (by have := printConnected_fuel L
            simp only [List.length_cons, List.length_append]
            omega) hterm1]
  simp only [Option.some_bind]
  rw [skipSp_cons_of_ne '/' _ (by decide), expectSlash_slash]
  simp only [Option.some_bind]
  rw [parseConnecteds_space,
      parseConnecteds_printConnected R _ _
        (by have := printConnected_fuel R
            simp only [List.length_cons, List.length_append]
            omega) hterm2]
  simp only [Option.some_bind]
  rw [skipSp_remChars_nil, parseRem_remChars_nil]
  simp only [Option.some_bind]
  rfl

/-- Counterexample to claim C3 as stated: applying the formula ~ Ur ~ to the
atomic-pattern string "a / 1 > 2 < -b" fails — after the first turn-over,
Ur's folded-pair input pattern does not match the single leaf at the '/' —
so the run does not produce "a / [1,-2] < b"; the worked example's input and
output strings are swapped relative to the test. -/
theorem formula_ul_cex :
    runFormula "~ Ur ~".data "a / 1 > 2 < -b".data = none ∧
    runFormula "~ Ur ~".data "a / 1 > 2 < -b".data ≠
      some "a / [1,-2] < b".data :=
  ⟨by decide, by decide⟩

/-- Claim C3 (amended): applying the formula ~ Ur ~ (the derived flex Ul) to
the atomic-pattern string "a / [1,-2] < b" succeeds — parsing the input,
threading it through the formula's operations against the base flexes, and
serializing the result yields exactly "a / 1 > 2 < -b", the worked example
with input and output as in the test corpus. -/
theorem formula_ul :
    runFormula "~ Ur ~".data "a / [1,-2] < b".data =
      some "a / 1 > 2 < -b".data := by decide

/-- Witness for claim C10 at a concrete input pair. -/
theorem addAndConsolidate_junction_witness :
    ∃ k, k ≤ ([['>'], ['>']] : List Str).length ∧
      k ≤ ([['<'], ['P']] : List Str).length ∧
      (∀ j, j < k →
        cancelsRotate (([['<'], ['P']] : List Str).getD j [])
          (([['>'], ['>']] : List Str).getD
            (([['>'], ['>']] : List Str).length - 1 - j) []) = true) ∧
      addAndConsolidate [['>'], ['>']] [['<'], ['P']] =
        ([['>'], ['>']] : List Str).take
          (([['>'], ['>']] : List Str).length - k) ++
        ([['<'], ['P']] : List Str).drop k ∧
      (k = ([['<'], ['P']] : List Str).length ∨
        k = ([['>'], ['>']] : List Str).length ∨
        cancelsRotate (([['<'], ['P']] : List Str).getD k [])
          (([['>'], ['>']] : List Str).getD
            (([['>'], ['>']] : List Str).length - 1 - k) []) = false) :=
  addAndConsolidate_junction [['>'], ['>']] [['<'], ['P']]

end Flexagonator
